import Mathlib

/-!
# PathWatcher: polling path-change watcher (`src/PathWatcher.h`)

A shallow embedding of the class `PathWatcher` and of its nested class
`PathWatcher::Path`.

* The file system is a snapshot `FileSystem`: `pathExists` is the result of
  `access(path, F_OK) == 0` and `st_mtime` is the `st_mtime` field that `stat`
  fills in.  The code calls `stat` only after `pathExists` returned true.
* `long modified` and `st_mtime` are integers; the code only copies and compares
  them, so no arithmetic (and no overflow) is involved.
* `std::vector<Path> paths` is a `List Path`; an iterator is an index into it.
* The callback is `std::function<void(const Event &)>`: an optional function that
  acts on its own world `κ` (everything that is not the watcher).  It does not
  call back into the watcher.
* Every operation runs atomically against one snapshot (the mutex is held for the
  whole body), so `mutex.lock()` / `mutex.unlock()` have no counterpart here.
-/

namespace PathWatcher

/-- The type of change, `enum ChangeType`. -/
inductive ChangeType where
  | NONE
  | CREATED
  | MODIFIED
  | DELETED
  deriving DecidableEq, Repr

/-- A change event, `struct Event`. -/
structure Event where
  change : ChangeType
  path : String
  name : String
  deriving DecidableEq, Repr

/-- A file system snapshot: the answers of `access(path, F_OK) == 0` and of
`stat(path).st_mtime` for every path string. -/
structure FileSystem where
  pathExists : String → Bool
  st_mtime : String → Int

/-- A path to watch, `class PathWatcher::Path`, with the member defaults
`modified = 0` and `exists = true` (`exists` is reserved in Lean, hence the
field name `exists_`). -/
structure Path where
  path : String
  name : String
  modified : Int := 0
  exists_ : Bool := true
  deriving DecidableEq, Repr

namespace Path

/-- The member `void update()`: store the current modification time. -/
def update (fs : FileSystem) (p : Path) : Path :=
  { p with modified := fs.st_mtime p.path }

/-- The constructor `Path(path, name)`: probes the path once. -/
def new (fs : FileSystem) (path name : String) : Path :=
  let p : Path := { path := path, name := name }
  if fs.pathExists path then
    p.update fs
  else
    { p with exists_ := false }

/-- The member `ChangeType changed()`: the detected change and the entry as the
call leaves it. -/
def changed (fs : FileSystem) (p : Path) : ChangeType × Path :=
  if fs.pathExists p.path then
    if p.exists_ then
      if p.modified ≠ fs.st_mtime p.path then
        (ChangeType.MODIFIED, { p with modified := fs.st_mtime p.path })
      else
        (ChangeType.NONE, p)
    else
      (ChangeType.CREATED, { p.update fs with exists_ := true })
  else if p.exists_ then
    (ChangeType.DELETED, { p with modified := 0, exists_ := false })
  else
    (ChangeType.NONE, p)

end Path

end PathWatcher

/-- The class `PathWatcher`: its data members with their initial values.  The
thread handle carries the sleep interval captured by the thread's lambda. -/
structure PathWatcher (κ : Type) where
  running : Bool := false
  thread : Option Nat := none
  paths : List PathWatcher.Path := []
  removeDeleted : Bool := false
  callback : Option (PathWatcher.Event → κ → κ) := none

namespace PathWatcher
open ChangeType

variable {κ : Type}

/-- The static member `pathExists(path)`, answered by the snapshot. -/
def pathExists (fs : FileSystem) (path : String) : Bool :=
  fs.pathExists path

/-- `addPath(path, name)`: `std::find_if` is `List.findIdx`, which gives the
length of the list (the `end()` position) when nothing matches. -/
def addPath (w : PathWatcher κ) (fs : FileSystem) (path : String) (name : String := "") :
    PathWatcher κ :=
  if !pathExists fs path then w
  else
    let iter := w.paths.findIdx (fun p => p.path == path)
    if iter = w.paths.length then
      { w with paths := w.paths ++ [Path.new fs path name] }
    else w

/-- `removePath(path)`: erase the first entry whose path matches. -/
def removePath (w : PathWatcher κ) (path : String) : PathWatcher κ :=
  let iter := w.paths.findIdx (fun p => p.path == path)
  if iter ≠ w.paths.length then
    { w with paths := w.paths.eraseIdx iter }
  else w

/-- `removePathByName(name)`: erase the first entry whose name matches. -/
def removePathByName (w : PathWatcher κ) (name : String) : PathWatcher κ :=
  let iter := w.paths.findIdx (fun p => p.name == name)
  if iter ≠ w.paths.length then
    { w with paths := w.paths.eraseIdx iter }
  else w

/-- `removeAllPaths()`. -/
def removeAllPaths (w : PathWatcher κ) : PathWatcher κ :=
  { w with paths := [] }

/-- `setCallback(callback)`; `none` is the empty `std::function`. -/
def setCallback (w : PathWatcher κ) (callback : Option (Event → κ → κ)) : PathWatcher κ :=
  { w with callback := callback }

/-- `setRemoveDeletedPaths(remove)`. -/
def setRemoveDeletedPaths (w : PathWatcher κ) (remove : Bool) : PathWatcher κ :=
  { w with removeDeleted := remove }

/-- The state of one `update()` pass: the vector `paths`, the world the callback
acts on, and two ghost traces that the code does not store: the entries on which
`changed()` was called and the events handed to the callback, both in call
order. -/
structure Pass (κ : Type) where
  paths : List Path
  world : κ
  checked : List Path
  delivered : List Event

/-- The body of `if(callback) {...}` in `update()`: build the event and call the
callback with it. -/
def deliver (callback : Option (Event → κ → κ)) (change : ChangeType) (path : Path)
    (s : Pass κ) : Pass κ :=
  match callback with
  | some cb =>
    let event : Event := { change := change, path := path.path, name := path.name }
    { s with world := cb event s.world, delivered := s.delivered ++ [event] }
  | none => s

/-- The `while(iter != std::end(paths))` loop of `update()`, with the iterator as
an index.  `paths.erase(iter)` moves the tail of the vector down by one, so the
position `iter` then holds the entry that followed the erased one; `continue`
skips the `iter++`. -/
def updateLoop (removeDeleted : Bool) (callback : Option (Event → κ → κ)) (fs : FileSystem)
    (iter : Nat) (s : Pass κ) : Pass κ :=
  if h : iter < s.paths.length then
    let path := s.paths.get ⟨iter, h⟩
    let r := path.changed fs
    let s1 : Pass κ := { s with paths := s.paths.set iter r.2, checked := s.checked ++ [path] }
    if r.1 ≠ NONE then
      let s2 := deliver callback r.1 r.2 s1
      if r.1 = DELETED ∧ removeDeleted = true then
        updateLoop removeDeleted callback fs iter { s2 with paths := s2.paths.eraseIdx iter }
      else
        updateLoop removeDeleted callback fs (iter + 1) s2
    else
      updateLoop removeDeleted callback fs (iter + 1) s1
  else s
termination_by s.paths.length - iter
decreasing_by
  all_goals simp_wf
  all_goals first
    | omega
    | (cases callback <;> simp [deliver, List.length_eraseIdx, h] <;> omega)

/-- `update()`: one pass over the watch list, starting at `std::begin(paths)`. -/
def update (w : PathWatcher κ) (fs : FileSystem) (world : κ) : Pass κ :=
  updateLoop w.removeDeleted w.callback fs 0
    { paths := w.paths, world := world, checked := [], delivered := [] }

/-- The event that one entry contributes to a pass, in the words of the polling
protocol: its transition computed with `changed()`, with the entry's own path
and name, unless the transition is `NONE`. -/
def eventOf (fs : FileSystem) (p : Path) : Option Event :=
  if (p.changed fs).1 ≠ NONE then
    some { change := (p.changed fs).1, path := p.path, name := p.name }
  else none

/-- The events of a pass as the polling protocol describes them: the entries in
registration order, each entry's transition, those that are not `NONE`. -/
def expectedEvents (fs : FileSystem) (paths : List Path) : List Event :=
  paths.filterMap (eventOf fs)

/-- The entries a pass leaves behind as the polling protocol describes them: every
entry after its `changed()` call, except the `DELETED` ones when the auto-remove
policy is on. -/
def survivors (removeDeleted : Bool) (fs : FileSystem) (paths : List Path) : List Path :=
  paths.filterMap fun p =>
    if (p.changed fs).1 = DELETED ∧ removeDeleted = true then none else some (p.changed fs).2

/-- The effect on the world of calling `cb` with each event of a list in turn. -/
def callAll (cb : Event → κ → κ) (events : List Event) (world : κ) : κ :=
  events.foldl (fun k e => cb e k) world

/-- One public call on a watcher, with the snapshot it runs against. -/
inductive Op (κ : Type) where
  | addPath (fs : FileSystem) (path name : String)
  | removePath (path : String)
  | removePathByName (name : String)
  | removeAllPaths
  | setCallback (callback : Option (Event → κ → κ))
  | setRemoveDeletedPaths (remove : Bool)
  | update (fs : FileSystem)

/-- What one public call did, as seen from outside: the path it registered (only
`addPath` registers, and only when it appends an entry) and the events it handed
to the callback (only `update` delivers). -/
structure Step where
  registered : Option String
  delivered : List Event
  deriving DecidableEq, Repr

/-- A watcher in its environment: the watcher, the world its callback acts on and
the ghost history of the calls made so far, oldest first. -/
structure Exec (κ : Type) where
  watcher : PathWatcher κ
  world : κ
  history : List Step

/-- Run one public call. -/
def Exec.step (x : Exec κ) : Op κ → Exec κ
  | Op.addPath fs path name =>
    let w := x.watcher.addPath fs path name
    { x with
      watcher := w
      history := x.history ++
        [{ registered := if w.paths.length = x.watcher.paths.length then none else some path,
           delivered := [] }] }
  | Op.removePath path =>
    { x with watcher := x.watcher.removePath path
             history := x.history ++ [{ registered := none, delivered := [] }] }
  | Op.removePathByName name =>
    { x with watcher := x.watcher.removePathByName name
             history := x.history ++ [{ registered := none, delivered := [] }] }
  | Op.removeAllPaths =>
    { x with watcher := x.watcher.removeAllPaths
             history := x.history ++ [{ registered := none, delivered := [] }] }
  | Op.setCallback callback =>
    { x with watcher := x.watcher.setCallback callback
             history := x.history ++ [{ registered := none, delivered := [] }] }
  | Op.setRemoveDeletedPaths remove =>
    { x with watcher := x.watcher.setRemoveDeletedPaths remove
             history := x.history ++ [{ registered := none, delivered := [] }] }
  | Op.update fs =>
    let r := x.watcher.update fs x.world
    { watcher := { x.watcher with paths := r.paths }
      world := r.world
      history := x.history ++ [{ registered := none, delivered := r.delivered }] }

/-- Run a sequence of public calls, first call first. -/
def Exec.run (x : Exec κ) (ops : List (Op κ)) : Exec κ :=
  ops.foldl Exec.step x

/-- A freshly constructed watcher (`PathWatcher() {}`) in a world `k`. -/
def Exec.fresh (k : κ) : Exec κ :=
  { watcher := {}, world := k, history := [] }

/-- `DELETED` has been reported for the entry `(P, name)` since `P` was last
registered: some call of the history delivered the event `(DELETED, P, name)` and
no later call of the history registered `P`. -/
def DeletedSince (P name : String) (history : List Step) : Prop :=
  ∃ (a b : List Step) (d : Step),
    history = a ++ d :: b
    ∧ ({ change := DELETED, path := P, name := name } : Event) ∈ d.delivered
    ∧ ∀ t ∈ b, t.registered ≠ some P

/-! ### Background loop lifecycle -/

/-- `start(sleep)`: when not running, set the flag and create the thread.  The
thread runs `while(running) {update(); sleep_for(sleep);}` on its own; what the
call itself leaves in the watcher is the flag and the handle, which carries the
captured interval. -/
def start (w : PathWatcher κ) (sleep : Nat := 500) : PathWatcher κ :=
  if !w.running then
    { w with running := true, thread := some sleep }
  else w

/-- `stop()`: when running, clear the flag, join and delete the thread and reset
the handle to `nullptr`. -/
def stop (w : PathWatcher κ) : PathWatcher κ :=
  if w.running then
    { w with running := false, thread := none }
  else w

/-- `isRunning()`. -/
def isRunning (w : PathWatcher κ) : Bool :=
  w.running

/-- A lifecycle call: `start(sleep)` or `stop()`. -/
inductive Lifecycle where
  | start (sleep : Nat)
  | stop
  deriving DecidableEq, Repr

/-- Run one lifecycle call. -/
def lifecycle (w : PathWatcher κ) : Lifecycle → PathWatcher κ
  | Lifecycle.start sleep => w.start sleep
  | Lifecycle.stop => w.stop

/-- Run a sequence of lifecycle calls, first call first. -/
def runLifecycle (w : PathWatcher κ) (calls : List Lifecycle) : PathWatcher κ :=
  calls.foldl lifecycle w

/-! ### Sample inputs -/

/-- A callback that appends the event it receives to a log. -/
def record : Event → List Event → List Event :=
  fun e log => log ++ [e]

/-- A snapshot in which `a` exists with modification time 5, `c` exists with
modification time 0 and nothing else exists. -/
def sampleFs : FileSystem :=
  { pathExists := fun p => p == "a" || p == "c"
    st_mtime := fun p => if p == "a" then 5 else 0 }

/-- A snapshot in which no path exists. -/
def emptyFs : FileSystem :=
  { pathExists := fun _ => false
    st_mtime := fun _ => 0 }

/-- A run in which `a` is registered, found deleted and then found again. -/
def recreateOps : List (Op (List Event)) :=
  [Op.addPath sampleFs "a" "x", Op.update emptyFs, Op.update sampleFs]

/-- A watcher with three entries, a recording callback and the default policy. -/
def sampleWatcher : PathWatcher (List Event) :=
  { paths := [⟨"a", "x", 3, true⟩, ⟨"b", "y", 7, true⟩, ⟨"c", "", 0, true⟩]
    callback := some record }

/-- A watcher with the auto-remove policy on whose entries `b`, `d` (adjacent)
and `e` (last) do not exist in `sampleFs`. -/
def autoRemoveWatcher : PathWatcher (List Event) :=
  { paths := [⟨"a", "x", 3, true⟩, ⟨"b", "y", 7, true⟩, ⟨"d", "", 1, true⟩,
              ⟨"c", "", 0, true⟩, ⟨"e", "z", 2, true⟩]
    removeDeleted := true
    callback := some record }

end PathWatcher

/-!
# Path: path string functions (`src/Path.h`)

A `std::string` is a Lean `String`, read as its list of characters; the path
functions below only look for the separator character, so nothing depends on the
encoding.
-/

namespace Path

/-- The platform path separator, Mac / Linux branch of the `#if`. -/
def separator : Char := '/'

/-- `std::string::rfind(c)`: the position of the last occurrence of `c`, or
`none` for `std::string::npos`. -/
def rfind : List Char → Char → Option Nat
  | [], _ => none
  | x :: rest, c =>
    match rfind rest c with
    | some pos => some (pos + 1)
    | none => if x = c then some 0 else none

/-- `std::string::substr(pos, n)` for `pos` within the string. -/
def substr (s : List Char) (pos n : Nat) : List Char :=
  (s.drop pos).take n

/-- `lastComponent(path)`. -/
def lastComponent (path : String) : String :=
  let pos := match rfind path.data separator with
    | some pos => pos
    | none => 0
  String.mk (substr path.data pos (path.data.length - pos))

/-- `std::getline(line, token, delim)` on the unread part of the stream: `none`
when nothing can be extracted (the stream is at its end), otherwise the token
and what is left unread.  The delimiter is extracted but not stored. -/
def getline : List Char → Char → Option (List Char × List Char)
  | [], _ => none
  | c :: rest, delim =>
    if c = delim then some ([], rest)
    else
      match getline rest delim with
      | some (token, unread) => some (c :: token, unread)
      | none => some ([c], [])

/-- The loop `while(std::getline(line, token, separator)) components.push_back(token)`
of `split`, with a bound on the number of iterations. -/
def splitLoop : Nat → List Char → List String → List String
  | 0, _, components => components
  | fuel + 1, line, components =>
    match getline line separator with
    | some (token, unread) => splitLoop fuel unread (components ++ [String.mk token])
    | none => components

/-- `split(path)`: every iteration extracts at least one character, so one more
iteration than the path has characters is enough for the loop to end. -/
def split (path : String) : List String :=
  splitLoop (path.data.length + 1) path.data []

end Path

namespace PathWatcher
open ChangeType

variable {κ : Type}

/-! ## One pass of `update()` -/

theorem deliver_paths (callback : Option (Event → κ → κ)) (change : ChangeType) (path : Path)
    (s : Pass κ) : (deliver callback change path s).paths = s.paths := by
  cases callback <;> rfl

theorem changed_path (fs : FileSystem) (p : Path) : (p.changed fs).2.path = p.path := by
  simp only [Path.changed, Path.update]
  split_ifs <;> rfl

theorem changed_name (fs : FileSystem) (p : Path) : (p.changed fs).2.name = p.name := by
  simp only [Path.changed, Path.update]
  split_ifs <;> rfl

/-- The loop, started at position `done.length` of `done ++ rest`, leaves `done`
alone, handles every entry of `rest` once and in order, and stops. -/
theorem updateLoop_eq (removeDeleted : Bool) (fs : FileSystem) (cb : Event → κ → κ) :
    ∀ (rest done : List Path) (world : κ) (checked : List Path) (delivered : List Event),
      updateLoop removeDeleted (some cb) fs done.length
          { paths := done ++ rest, world := world, checked := checked, delivered := delivered }
        = { paths := done ++ survivors removeDeleted fs rest
            world := callAll cb (expectedEvents fs rest) world
            checked := checked ++ rest
            delivered := delivered ++ expectedEvents fs rest } := by
  intro rest
  induction rest with
  | nil =>
    intro done world checked delivered
    rw [updateLoop]
    simp [survivors, expectedEvents, callAll]
  | cons p rest ih =>
    intro done world checked delivered
    rw [updateLoop]
    have hlt : done.length < (done ++ p :: rest).length := by simp
    have hget : (done ++ p :: rest).get ⟨done.length, hlt⟩ = p := by
      rw [List.get_eq_getElem, List.getElem_append_right (le_refl _)]
      simp
    have hset : ∀ q, (done ++ p :: rest).set done.length q = (done ++ [q]) ++ rest := by
      intro q; simp
    have herase : ∀ q, ((done ++ [q]) ++ rest).eraseIdx done.length = done ++ rest := by
      intro q
      rw [List.append_assoc, List.eraseIdx_append_of_length_le (le_refl _)]
      simp
    have hlen : ∀ q : Path, done.length + 1 = (done ++ [q]).length := by intro q; simp
    simp only [hlt, dite_true, hget, hset]
    by_cases hn : (p.changed fs).1 = NONE
    · simp only [hn, ne_eq, not_true_eq_false, ite_false]
      rw [hlen (p.changed fs).2, ih]
      simp [survivors, expectedEvents, eventOf, hn, callAll]
    · simp only [ne_eq, hn, not_false_eq_true, ite_true, deliver]
      by_cases hd : (p.changed fs).1 = DELETED ∧ removeDeleted = true
      · obtain ⟨hd1, hd2⟩ := hd
        subst hd2
        simp only [hd1, and_self, ite_true, herase]
        rw [ih]
        simp [survivors, expectedEvents, eventOf, hd1, callAll, changed_path, changed_name]
      · rw [if_neg hd, hlen (p.changed fs).2, ih]
        simp [survivors, expectedEvents, eventOf, hn, hd, callAll, changed_path, changed_name]

/-- The same loop with no callback registered: nothing is delivered and the
world is untouched; the watch list is handled in the same way. -/
theorem updateLoop_eq_none (removeDeleted : Bool) (fs : FileSystem) :
    ∀ (rest done : List Path) (world : κ) (checked : List Path) (delivered : List Event),
      updateLoop removeDeleted none fs done.length
          { paths := done ++ rest, world := world, checked := checked, delivered := delivered }
        = { paths := done ++ survivors removeDeleted fs rest
            world := world
            checked := checked ++ rest
            delivered := delivered } := by
  intro rest
  induction rest with
  | nil =>
    intro done world checked delivered
    rw [updateLoop]
    simp [survivors]
  | cons p rest ih =>
    intro done world checked delivered
    rw [updateLoop]
    have hlt : done.length < (done ++ p :: rest).length := by simp
    have hget : (done ++ p :: rest).get ⟨done.length, hlt⟩ = p := by
      rw [List.get_eq_getElem, List.getElem_append_right (le_refl _)]
      simp
    have hset : ∀ q, (done ++ p :: rest).set done.length q = (done ++ [q]) ++ rest := by
      intro q; simp
    have herase : ∀ q, ((done ++ [q]) ++ rest).eraseIdx done.length = done ++ rest := by
      intro q
      rw [List.append_assoc, List.eraseIdx_append_of_length_le (le_refl _)]
      simp
    have hlen : ∀ q : Path, done.length + 1 = (done ++ [q]).length := by intro q; simp
    simp only [hlt, dite_true, hget, hset]
    by_cases hn : (p.changed fs).1 = NONE
    · simp only [hn, ne_eq, not_true_eq_false, ite_false]
      rw [hlen (p.changed fs).2, ih]
      simp [survivors, hn]
    · simp only [ne_eq, hn, not_false_eq_true, ite_true, deliver]
      by_cases hd : (p.changed fs).1 = DELETED ∧ removeDeleted = true
      · obtain ⟨hd1, hd2⟩ := hd
        subst hd2
        simp only [hd1, and_self, ite_true, herase]
        rw [ih]
        simp [survivors, hd1]
      · rw [if_neg hd, hlen (p.changed fs).2, ih]
        simp [survivors, hd]

theorem update_some (w : PathWatcher κ) (fs : FileSystem) (k : κ) (cb : Event → κ → κ)
    (h : w.callback = some cb) :
    w.update fs k = { paths := survivors w.removeDeleted fs w.paths
                      world := callAll cb (expectedEvents fs w.paths) k
                      checked := w.paths
                      delivered := expectedEvents fs w.paths } := by
  have := updateLoop_eq w.removeDeleted fs cb w.paths [] k [] []
  simpa [update, h] using this

theorem update_none (w : PathWatcher κ) (fs : FileSystem) (k : κ) (h : w.callback = none) :
    w.update fs k = { paths := survivors w.removeDeleted fs w.paths
                      world := k
                      checked := w.paths
                      delivered := [] } := by
  have := updateLoop_eq_none w.removeDeleted fs w.paths [] k [] []
  simpa [update, h] using this

theorem update_paths (w : PathWatcher κ) (fs : FileSystem) (k : κ) :
    (w.update fs k).paths = survivors w.removeDeleted fs w.paths := by
  cases h : w.callback with
  | none => rw [update_none w fs k h]
  | some cb => rw [update_some w fs k cb h]

theorem update_checked (w : PathWatcher κ) (fs : FileSystem) (k : κ) :
    (w.update fs k).checked = w.paths := by
  cases h : w.callback with
  | none => rw [update_none w fs k h]
  | some cb => rw [update_some w fs k cb h]

theorem expectedEvents_eq (fs : FileSystem) (paths : List Path) :
    expectedEvents fs paths
      = (paths.filter (fun p => (p.changed fs).1 ≠ NONE)).map
          (fun p => { change := (p.changed fs).1, path := p.path, name := p.name }) := by
  induction paths with
  | nil => rfl
  | cons p rest ih =>
    by_cases hn : (p.changed fs).1 = NONE
    · simpa [expectedEvents, eventOf, hn, List.filterMap_cons] using ih
    · simpa [expectedEvents, eventOf, hn, List.filterMap_cons] using ih

theorem survivors_true (fs : FileSystem) (paths : List Path) :
    survivors true fs paths
      = (paths.filter (fun p => (p.changed fs).1 ≠ DELETED)).map (fun p => (p.changed fs).2) := by
  induction paths with
  | nil => rfl
  | cons p rest ih =>
    by_cases hn : (p.changed fs).1 = DELETED
    · simpa [survivors, hn, List.filterMap_cons] using ih
    · simpa [survivors, hn, List.filterMap_cons] using ih

theorem survivors_false (fs : FileSystem) (paths : List Path) :
    survivors false fs paths = paths.map (fun p => (p.changed fs).2) := by
  induction paths with
  | nil => rfl
  | cons p rest ih => simpa [survivors, List.filterMap_cons] using ih

theorem changed_changed (fs : FileSystem) (p : Path) :
    (p.changed fs).2.changed fs = (NONE, (p.changed fs).2) := by
  obtain ⟨path, name, modified, ex⟩ := p
  by_cases h1 : fs.pathExists path = true <;> by_cases h2 : ex = true <;>
    by_cases h3 : modified = fs.st_mtime path <;>
    simp_all [Path.changed, Path.update]

theorem expectedEvents_survivors (removeDeleted : Bool) (fs : FileSystem) (paths : List Path) :
    expectedEvents fs (survivors removeDeleted fs paths) = [] := by
  induction paths with
  | nil => rfl
  | cons p rest ih =>
    by_cases hd : (p.changed fs).1 = DELETED ∧ removeDeleted = true
    · simpa [survivors, hd, List.filterMap_cons, expectedEvents] using ih
    · have hnone : eventOf fs (p.changed fs).2 = none := by
        simp [eventOf, changed_changed]
      simp only [survivors, expectedEvents, List.filterMap_cons, if_neg hd, hnone]
      simpa [survivors, expectedEvents] using ih

theorem survivors_survivors (removeDeleted : Bool) (fs : FileSystem) (paths : List Path) :
    survivors removeDeleted fs (survivors removeDeleted fs paths)
      = survivors removeDeleted fs paths := by
  induction paths with
  | nil => rfl
  | cons p rest ih =>
    by_cases hd : (p.changed fs).1 = DELETED ∧ removeDeleted = true
    · simpa [survivors, hd, List.filterMap_cons] using ih
    · have hkeep : ¬ (((p.changed fs).2.changed fs).1 = DELETED ∧ removeDeleted = true) := by
        simp [changed_changed]
      simp only [survivors, List.filterMap_cons, if_neg hd, if_neg hkeep, changed_changed]
      simpa [survivors] using ih

/-! ## Registration and removal -/

theorem eraseIdx_findIdx {α : Type} (f : α → Bool) (l : List α) :
    l.eraseIdx (l.findIdx f) = l.eraseP f := by
  induction l with
  | nil => rfl
  | cons a l ih =>
    by_cases h : f a = true
    · simp [List.findIdx_cons, h]
    · simp [List.findIdx_cons, h, ih, List.eraseP_cons]

theorem removePath_eq (w : PathWatcher κ) (path : String) :
    w.removePath path = { w with paths := w.paths.eraseP (fun p => p.path == path) } := by
  unfold removePath
  by_cases h : w.paths.findIdx (fun p => p.path == path) = w.paths.length
  · have hno := List.findIdx_eq_length.mp h
    simp only [h, ne_eq, not_true_eq_false, ite_false]
    rw [List.eraseP_of_forall_not]
    intro a ha
    simp [hno a ha]
  · simp only [ne_eq, h, not_false_eq_true, ite_true, eraseIdx_findIdx]

theorem removePathByName_eq (w : PathWatcher κ) (name : String) :
    w.removePathByName name = { w with paths := w.paths.eraseP (fun p => p.name == name) } := by
  unfold removePathByName
  by_cases h : w.paths.findIdx (fun p => p.name == name) = w.paths.length
  · have hno := List.findIdx_eq_length.mp h
    simp only [h, ne_eq, not_true_eq_false, ite_false]
    rw [List.eraseP_of_forall_not]
    intro a ha
    simp [hno a ha]
  · simp only [ne_eq, h, not_false_eq_true, ite_true, eraseIdx_findIdx]

theorem removePath_paths (w : PathWatcher κ) (path : String) :
    (w.removePath path).paths = w.paths.eraseP (fun p => p.path == path) := by
  rw [removePath_eq]

theorem removePathByName_paths (w : PathWatcher κ) (name : String) :
    (w.removePathByName name).paths = w.paths.eraseP (fun p => p.name == name) := by
  rw [removePathByName_eq]

theorem new_of_exists (fs : FileSystem) (path name : String) (h : fs.pathExists path = true) :
    Path.new fs path name = ⟨path, name, fs.st_mtime path, true⟩ := by
  simp [Path.new, Path.update, h]

theorem addPath_absent (w : PathWatcher κ) (fs : FileSystem) (path name : String)
    (h : fs.pathExists path = false) : w.addPath fs path name = w := by
  simp [addPath, pathExists, h]

theorem addPath_tracked (w : PathWatcher κ) (fs : FileSystem) (path name : String)
    (h : ∃ p ∈ w.paths, p.path = path) : w.addPath fs path name = w := by
  unfold addPath
  by_cases hex : pathExists fs path = true
  · have hne : w.paths.findIdx (fun p => p.path == path) ≠ w.paths.length := by
      intro heq
      obtain ⟨p, hp, hpp⟩ := h
      have := List.findIdx_eq_length.mp heq p hp
      simp [hpp] at this
    simp [hex, hne]
  · simp [hex]

theorem addPath_fresh (w : PathWatcher κ) (fs : FileSystem) (path name : String)
    (hex : fs.pathExists path = true) (hnew : ∀ p ∈ w.paths, p.path ≠ path) :
    w.addPath fs path name
      = { w with paths := w.paths ++ [⟨path, name, fs.st_mtime path, true⟩] } := by
  have heq : w.paths.findIdx (fun p => p.path == path) = w.paths.length := by
    rw [List.findIdx_eq_length]
    intro p hp
    simpa using hnew p hp
  simp [addPath, pathExists, hex, heq, new_of_exists]

theorem survivors_path_sublist (removeDeleted : Bool) (fs : FileSystem) (paths : List Path) :
    List.Sublist ((survivors removeDeleted fs paths).map Path.path) (paths.map Path.path) := by
  induction paths with
  | nil => simp [survivors]
  | cons p rest ih =>
    by_cases hd : (p.changed fs).1 = DELETED ∧ removeDeleted = true
    · have : survivors removeDeleted fs (p :: rest) = survivors removeDeleted fs rest := by
        simp [survivors, List.filterMap_cons, hd]
      rw [this]
      exact List.Sublist.cons _ ih
    · have : survivors removeDeleted fs (p :: rest)
          = (p.changed fs).2 :: survivors removeDeleted fs rest := by
        simp only [survivors, List.filterMap_cons, if_neg hd]
      rw [this, List.map_cons, List.map_cons, changed_path]
      exact List.Sublist.cons₂ _ ih

/-- Every public call keeps the paths of the watch list pairwise distinct. -/
theorem step_nodup (x : Exec κ) (op : Op κ)
    (h : (x.watcher.paths.map Path.path).Nodup) :
    ((x.step op).watcher.paths.map Path.path).Nodup := by
  cases op with
  | addPath fs path name =>
    simp only [Exec.step]
    by_cases hex : fs.pathExists path = true
    · by_cases hnew : ∀ p ∈ x.watcher.paths, p.path ≠ path
      · rw [addPath_fresh _ fs path name hex hnew]
        simp only [List.map_append, List.map_cons, List.map_nil]
        rw [List.nodup_append]
        refine ⟨h, List.nodup_singleton _, ?_⟩
        intro a ha hb
        simp only [List.mem_singleton] at hb
        simp only [List.mem_map] at ha
        obtain ⟨p, hp, rfl⟩ := ha
        exact hnew p hp hb
      · push_neg at hnew
        rw [addPath_tracked _ fs path name hnew]
        exact h
    · rw [addPath_absent _ fs path name (by simpa using hex)]
      exact h
  | removePath path =>
    simp only [Exec.step, removePath_paths]
    exact h.sublist ((List.eraseP_sublist _).map _)
  | removePathByName name =>
    simp only [Exec.step, removePathByName_paths]
    exact h.sublist ((List.eraseP_sublist _).map _)
  | removeAllPaths => simp [Exec.step, removeAllPaths]
  | setCallback cb => simpa [Exec.step, setCallback] using h
  | setRemoveDeletedPaths r => simpa [Exec.step, setRemoveDeletedPaths] using h
  | update fs =>
    simp only [Exec.step, update_paths]
    exact h.sublist (survivors_path_sublist _ fs _)

theorem run_nodup (ops : List (Op κ)) :
    ∀ x : Exec κ, (x.watcher.paths.map Path.path).Nodup →
      ((x.run ops).watcher.paths.map Path.path).Nodup := by
  induction ops with
  | nil => intro x h; exact h
  | cons op ops ih =>
    intro x h
    exact ih (x.step op) (step_nodup x op h)

/-- Erasing the first match twice is erasing it once when at most one element
matches. -/
theorem eraseP_eraseP {α : Type} (f : α → Bool) (l : List α) (h : l.countP f ≤ 1) :
    (l.eraseP f).eraseP f = l.eraseP f := by
  induction l with
  | nil => rfl
  | cons a l ih =>
    by_cases hfa : f a = true
    · have hzero : l.countP f = 0 := by
        rw [List.countP_cons] at h
        simp only [hfa, ite_true] at h
        omega
      simp only [List.eraseP_cons, hfa, cond_true]
      exact List.eraseP_of_forall_not (List.countP_eq_zero.mp hzero)
    · have hle : l.countP f ≤ 1 := by
        rw [List.countP_cons] at h
        omega
      simp only [List.eraseP_cons, hfa, cond_false, ih hle]

theorem countP_path_le_one (path : String) (l : List Path)
    (h : (l.map Path.path).Nodup) : l.countP (fun p => p.path == path) ≤ 1 := by
  induction l with
  | nil => simp
  | cons a l ih =>
    rw [List.map_cons, List.nodup_cons] at h
    rw [List.countP_cons]
    by_cases ha : a.path = path
    · have hzero : l.countP (fun p => p.path == path) = 0 := by
        rw [List.countP_eq_zero]
        intro q hq hqp
        apply h.1
        rw [List.mem_map]
        exact ⟨q, hq, by rw [ha]; simpa using hqp⟩
      simp [hzero, ha]
    · have := ih h.2
      simp [ha, this]

theorem mem_survivors {removeDeleted : Bool} {fs : FileSystem} {paths : List Path} {q : Path}
    (h : q ∈ survivors removeDeleted fs paths) :
    ∃ p ∈ paths, ¬ ((p.changed fs).1 = DELETED ∧ removeDeleted = true) ∧ q = (p.changed fs).2 := by
  simp only [survivors, List.mem_filterMap] at h
  obtain ⟨p, hp, hq⟩ := h
  by_cases hd : (p.changed fs).1 = DELETED ∧ removeDeleted = true
  · simp [hd] at hq
  · rw [if_neg hd] at hq
    exact ⟨p, hp, hd, (Option.some.inj hq).symm⟩

theorem mem_expectedEvents {fs : FileSystem} {paths : List Path} {e : Event} :
    e ∈ expectedEvents fs paths ↔
      ∃ p ∈ paths, (p.changed fs).1 ≠ NONE ∧ e = ⟨(p.changed fs).1, p.path, p.name⟩ := by
  simp only [expectedEvents, List.mem_filterMap, eventOf]
  constructor
  · rintro ⟨p, hp, he⟩
    by_cases hn : (p.changed fs).1 = NONE
    · simp [hn] at he
    · rw [if_pos hn] at he
      exact ⟨p, hp, hn, (Option.some.inj he).symm⟩
  · rintro ⟨p, hp, hn, rfl⟩
    exact ⟨p, hp, by rw [if_pos hn]⟩

/-- Whatever the callback, every delivered event is one of the expected ones. -/
theorem delivered_subset (w : PathWatcher κ) (fs : FileSystem) (k : κ) :
    ∀ e ∈ (w.update fs k).delivered, e ∈ expectedEvents fs w.paths := by
  cases h : w.callback with
  | none => rw [update_none w fs k h]; simp
  | some cb => rw [update_some w fs k cb h]; simp

/-! ## Histories -/

theorem deletedSince_append {P name : String} {history : List Step} (st : Step)
    (h : DeletedSince P name history) (hreg : st.registered ≠ some P) :
    DeletedSince P name (history ++ [st]) := by
  obtain ⟨a, b, d, rfl, hd, hb⟩ := h
  refine ⟨a, b ++ [st], d, by simp, hd, ?_⟩
  intro t ht
  rcases List.mem_append.mp ht with ht | ht
  · exact hb t ht
  · rw [List.mem_singleton.mp ht]
    exact hreg

theorem deletedSince_last {P name : String} (history : List Step) (st : Step)
    (h : ({ change := DELETED, path := P, name := name } : Event) ∈ st.delivered) :
    DeletedSince P name (history ++ [st]) :=
  ⟨history, [], st, rfl, h, by simp⟩

/-- A property of every delivered `CREATED` event extends from a history to the
history with one more call. -/
theorem created_extend (history : List Step) (st : Step)
    (hold : ∀ (before : List Step) (s : Step) (after : List Step) (P name : String),
      history = before ++ s :: after →
      ({ change := CREATED, path := P, name := name } : Event) ∈ s.delivered →
      DeletedSince P name before)
    (hnew : ∀ P name : String,
      ({ change := CREATED, path := P, name := name } : Event) ∈ st.delivered →
      DeletedSince P name history) :
    ∀ (before : List Step) (s : Step) (after : List Step) (P name : String),
      history ++ [st] = before ++ s :: after →
      ({ change := CREATED, path := P, name := name } : Event) ∈ s.delivered →
      DeletedSince P name before := by
  intro before s after P name heq hmem
  rcases List.eq_nil_or_concat after with rfl | ⟨after', z, rfl⟩
  · have := List.append_inj' heq rfl
    obtain ⟨h1, h2⟩ := this
    have hs : st = s := by simpa using h2
    subst hs
    subst h1
    exact hnew P name hmem
  · have heq' : history ++ [st] = (before ++ s :: after') ++ [z] := by
      rw [heq]; simp
    have := List.append_inj' heq' rfl
    exact hold before s after' P name this.1 hmem

theorem created_was_absent {fs : FileSystem} {p : Path} (h : (p.changed fs).1 = CREATED) :
    p.exists_ = false := by
  obtain ⟨path, name, modified, ex⟩ := p
  by_cases h1 : fs.pathExists path = true <;> by_cases h2 : ex = true <;>
    by_cases h3 : modified = fs.st_mtime path <;>
    simp_all [Path.changed, Path.update]

theorem absent_after_changed {fs : FileSystem} {p : Path}
    (h : (p.changed fs).2.exists_ = false) :
    (p.changed fs).1 = DELETED ∨ ((p.changed fs).2 = p ∧ p.exists_ = false) := by
  obtain ⟨path, name, modified, ex⟩ := p
  by_cases h1 : fs.pathExists path = true <;> by_cases h2 : ex = true <;>
    by_cases h3 : modified = fs.st_mtime path <;>
    simp_all [Path.changed, Path.update]

/-- One public call other than `setCallback(nullptr)` keeps: a callback is
registered; every tracked entry with `exists = false` has had `DELETED` reported
since its registration; every delivered `CREATED` was preceded by such a
`DELETED`. -/
theorem step_reported (x : Exec κ) (op : Op κ) (hop : op ≠ Op.setCallback none)
    (hcb : ∃ cb, x.watcher.callback = some cb)
    (hent : ∀ p ∈ x.watcher.paths, p.exists_ = false →
      DeletedSince p.path p.name x.history)
    (hist : ∀ (before : List Step) (s : Step) (after : List Step) (P name : String),
      x.history = before ++ s :: after →
      ({ change := CREATED, path := P, name := name } : Event) ∈ s.delivered →
      DeletedSince P name before) :
    (∃ cb, (x.step op).watcher.callback = some cb)
    ∧ (∀ p ∈ (x.step op).watcher.paths, p.exists_ = false →
        DeletedSince p.path p.name (x.step op).history)
    ∧ (∀ (before : List Step) (s : Step) (after : List Step) (P name : String),
        (x.step op).history = before ++ s :: after →
        ({ change := CREATED, path := P, name := name } : Event) ∈ s.delivered →
        DeletedSince P name before) := by
  have hnone : ∀ (r : Option String) (P name : String),
      ({ change := CREATED, path := P, name := name } : Event)
          ∈ ({ registered := r, delivered := [] } : Step).delivered →
        DeletedSince P name x.history := by
    intro r P name h
    simp at h
  cases op with
  | addPath fs path name =>
    by_cases hex : fs.pathExists path = true
    · by_cases hnew : ∀ p ∈ x.watcher.paths, p.path ≠ path
      · simp only [Exec.step, addPath_fresh _ fs path name hex hnew]
        refine ⟨hcb, ?_, created_extend _ _ hist (hnone _)⟩
        intro p hp hpe
        simp only [List.mem_append, List.mem_singleton] at hp
        rcases hp with hp | rfl
        · refine deletedSince_append _ (hent p hp hpe) ?_
          simp only [List.length_append, List.length_singleton]
          have := hnew p hp
          simp [Ne.symm this]
        · simp at hpe
      · push_neg at hnew
        simp only [Exec.step, addPath_tracked _ fs path name hnew]
        refine ⟨hcb, ?_, created_extend _ _ hist (hnone _)⟩
        intro p hp hpe
        exact deletedSince_append _ (hent p hp hpe) (by simp)
    · simp only [Exec.step, addPath_absent _ fs path name (by simpa using hex)]
      refine ⟨hcb, ?_, created_extend _ _ hist (hnone _)⟩
      intro p hp hpe
      exact deletedSince_append _ (hent p hp hpe) (by simp)
  | removePath path =>
    simp only [Exec.step, removePath_eq]
    refine ⟨hcb, ?_, created_extend _ _ hist (hnone _)⟩
    intro p hp hpe
    exact deletedSince_append _ (hent p ((List.eraseP_subset _) hp) hpe) (by simp)
  | removePathByName name =>
    simp only [Exec.step, removePathByName_eq]
    refine ⟨hcb, ?_, created_extend _ _ hist (hnone _)⟩
    intro p hp hpe
    exact deletedSince_append _ (hent p ((List.eraseP_subset _) hp) hpe) (by simp)
  | removeAllPaths =>
    simp only [Exec.step, removeAllPaths]
    refine ⟨hcb, ?_, created_extend _ _ hist (hnone _)⟩
    intro p hp
    simp at hp
  | setCallback cb =>
    simp only [Exec.step, setCallback]
    refine ⟨?_, ?_, created_extend _ _ hist (hnone _)⟩
    · cases cb with
      | none => exact absurd rfl hop
      | some f => exact ⟨f, rfl⟩
    · intro p hp hpe
      exact deletedSince_append _ (hent p hp hpe) (by simp)
  | setRemoveDeletedPaths r =>
    simp only [Exec.step, setRemoveDeletedPaths]
    refine ⟨hcb, ?_, created_extend _ _ hist (hnone _)⟩
    intro p hp hpe
    exact deletedSince_append _ (hent p hp hpe) (by simp)
  | update fs =>
    obtain ⟨cb, hcb'⟩ := hcb
    simp only [Exec.step, update_some _ fs _ cb hcb']
    refine ⟨⟨cb, hcb'⟩, ?_, created_extend _ _ hist ?_⟩
    · intro q hq hqe
      obtain ⟨p, hp, hd, rfl⟩ := mem_survivors hq
      rw [changed_path, changed_name]
      rcases absent_after_changed hqe with hdel | ⟨_, hpe⟩
      · apply deletedSince_last
        rw [mem_expectedEvents]
        exact ⟨p, hp, by simp [hdel], by rw [hdel]⟩
      · exact deletedSince_append _ (hent p hp hpe) (by simp)
    · intro P name hmem
      rw [mem_expectedEvents] at hmem
      obtain ⟨p, hp, _, he⟩ := hmem
      have hc : (p.changed fs).1 = CREATED := by
        have := congrArg Event.change he
        exact this.symm
      have h1 : P = p.path := congrArg Event.path he
      have h2 : name = p.name := congrArg Event.name he
      rw [h1, h2]
      exact hent p hp (created_was_absent hc)

theorem run_reported (ops : List (Op κ)) :
    ∀ (x : Exec κ), (∀ op ∈ ops, op ≠ Op.setCallback none) →
      (∃ cb, x.watcher.callback = some cb) →
      (∀ p ∈ x.watcher.paths, p.exists_ = false → DeletedSince p.path p.name x.history) →
      (∀ (before : List Step) (s : Step) (after : List Step) (P name : String),
        x.history = before ++ s :: after →
        ({ change := CREATED, path := P, name := name } : Event) ∈ s.delivered →
        DeletedSince P name before) →
      (∀ p ∈ (x.run ops).watcher.paths, p.exists_ = false →
          DeletedSince p.path p.name (x.run ops).history)
      ∧ (∀ (before : List Step) (s : Step) (after : List Step) (P name : String),
          (x.run ops).history = before ++ s :: after →
          ({ change := CREATED, path := P, name := name } : Event) ∈ s.delivered →
          DeletedSince P name before) := by
  induction ops with
  | nil =>
    intro x _ _ hent hist
    exact ⟨hent, hist⟩
  | cons op ops ih =>
    intro x hops hcb hent hist
    obtain ⟨h1, h2, h3⟩ :=
      step_reported x op (hops op (List.mem_cons_self _ _)) hcb hent hist
    exact ih (x.step op) (fun o ho => hops o (List.mem_cons_of_mem _ ho)) h1 h2 h3

theorem step_update_some (x : Exec κ) (fs : FileSystem) (cb : Event → κ → κ)
    (h : x.watcher.callback = some cb) :
    x.step (Op.update fs)
      = { watcher := { x.watcher with paths := survivors x.watcher.removeDeleted fs x.watcher.paths }
          world := callAll cb (expectedEvents fs x.watcher.paths) x.world
          history := x.history ++
            [{ registered := none, delivered := expectedEvents fs x.watcher.paths }] } := by
  simp only [Exec.step, update_some _ fs _ cb h]

/-! ## Claims -/

/-- C1: `Path::changed()` implements the decision table: for every stored entry
`p` and every probe result `(pathExists p.path, st_mtime p.path)`, the five rows
give the returned change and the entry left behind; `path` and `name` never
change. -/
theorem changed_decision_table (fs : FileSystem) (p : Path) :
    ((p.exists_ = true ∧ fs.pathExists p.path = true ∧ fs.st_mtime p.path = p.modified) →
        p.changed fs = (NONE, p))
    ∧ ((p.exists_ = true ∧ fs.pathExists p.path = true ∧ fs.st_mtime p.path ≠ p.modified) →
        p.changed fs = (MODIFIED, ⟨p.path, p.name, fs.st_mtime p.path, true⟩))
    ∧ ((p.exists_ = true ∧ fs.pathExists p.path = false) →
        p.changed fs = (DELETED, ⟨p.path, p.name, 0, false⟩))
    ∧ ((p.exists_ = false ∧ fs.pathExists p.path = true) →
        p.changed fs = (CREATED, ⟨p.path, p.name, fs.st_mtime p.path, true⟩))
    ∧ ((p.exists_ = false ∧ fs.pathExists p.path = false) →
        p.changed fs = (NONE, p))
    ∧ (p.changed fs).2.path = p.path ∧ (p.changed fs).2.name = p.name := by
  obtain ⟨path, name, modified, ex⟩ := p
  refine ⟨?_, ?_, ?_, ?_, ?_, ?_, ?_⟩
  · rintro ⟨h1, h2, h3⟩
    simp_all [Path.changed]
  · rintro ⟨h1, h2, h3⟩
    simp_all [Path.changed]
    exact fun h => absurd h.symm h3
  · rintro ⟨h1, h2⟩
    simp_all [Path.changed]
  · rintro ⟨h1, h2⟩
    simp_all [Path.changed, Path.update]
  · rintro ⟨h1, h2⟩
    simp_all [Path.changed]
  · simp only [Path.changed, Path.update]
    split_ifs <;> rfl
  · simp only [Path.changed, Path.update]
    split_ifs <;> rfl

/-- C2: with a callback registered, one `update()` call hands the callback exactly
the events obtained from the entries in registration order, each entry's
transition computed with `changed()`, keeping those that are not `NONE`, each
with that entry's own path and name; the callback's effect is that of being
called with these events in turn; no delivered event is `NONE`; and the
(path, name) pairs of the delivered events form a sublist of those of the watch
list, so there is at most one event per entry, in registration order. -/
theorem update_delivers_expected (w : PathWatcher κ) (fs : FileSystem) (k : κ)
    (cb : Event → κ → κ) (h : w.callback = some cb) :
    (w.update fs k).delivered
        = (w.paths.filter (fun p => (p.changed fs).1 ≠ NONE)).map
            (fun p => { change := (p.changed fs).1, path := p.path, name := p.name })
    ∧ (w.update fs k).world = callAll cb (w.update fs k).delivered k
    ∧ (∀ e ∈ (w.update fs k).delivered, e.change ≠ NONE)
    ∧ List.Sublist ((w.update fs k).delivered.map (fun e => (e.path, e.name)))
        (w.paths.map (fun p => (p.path, p.name))) := by
  rw [update_some w fs k cb h]
  simp only [expectedEvents_eq]
  refine ⟨trivial, trivial, ?_, ?_⟩
  · intro e he
    simp only [List.mem_map, List.mem_filter] at he
    obtain ⟨p, ⟨_, hp⟩, rfl⟩ := he
    simpa using hp
  · rw [List.map_map]
    exact (List.filter_sublist _).map _

theorem update_delivers_expected_witness :
    (sampleWatcher.update sampleFs []).delivered
      = [⟨MODIFIED, "a", "x"⟩, ⟨DELETED, "b", "y"⟩] := by
  rw [(update_delivers_expected sampleWatcher sampleFs [] record rfl).1]
  decide

/-- C3: with the auto-remove policy on, `update()` calls `changed()` on every
entry that was in the list at the start of the pass, exactly once and in
registration order (the trace of checked entries is the watch list itself), and
the list it leaves holds exactly the entries whose transition was not `DELETED`,
in their original order; when every entry is deleted the list ends empty. -/
theorem update_autoremove (w : PathWatcher κ) (fs : FileSystem) (k : κ)
    (h : w.removeDeleted = true) :
    (w.update fs k).checked = w.paths
    ∧ (w.update fs k).paths
        = (w.paths.filter (fun p => (p.changed fs).1 ≠ DELETED)).map (fun p => (p.changed fs).2)
    ∧ ((∀ p ∈ w.paths, (p.changed fs).1 = DELETED) → (w.update fs k).paths = []) := by
  have hp : (w.update fs k).paths
      = (w.paths.filter (fun p => (p.changed fs).1 ≠ DELETED)).map
          (fun p => (p.changed fs).2) := by
    rw [update_paths, h, survivors_true]
  refine ⟨update_checked w fs k, hp, ?_⟩
  intro hall
  rw [hp, List.map_eq_nil_iff, List.filter_eq_nil_iff]
  intro p hmem
  simp [hall p hmem]

theorem update_autoremove_witness :
    (autoRemoveWatcher.update sampleFs []).checked = autoRemoveWatcher.paths
    ∧ (autoRemoveWatcher.update sampleFs []).paths
        = [⟨"a", "x", 5, true⟩, ⟨"c", "", 0, true⟩] := by
  have h := update_autoremove autoRemoveWatcher sampleFs [] rfl
  refine ⟨h.1, ?_⟩
  rw [h.2.1]
  decide

/-- C4: running `update()` a second time against the same snapshot delivers no
event, leaves the callback's world alone and leaves the watch list exactly as
the first pass left it, whatever the policy and the callback. -/
theorem update_twice (w : PathWatcher κ) (fs : FileSystem) (k : κ) :
    (update { w with paths := (w.update fs k).paths } fs (w.update fs k).world).delivered = []
    ∧ (update { w with paths := (w.update fs k).paths } fs (w.update fs k).world).paths
        = (w.update fs k).paths
    ∧ (update { w with paths := (w.update fs k).paths } fs (w.update fs k).world).world
        = (w.update fs k).world := by
  rw [update_paths w fs k]
  cases h : w.callback with
  | none =>
    rw [update_none _ fs _ (by rfl)]
    simp [survivors_survivors]
  | some cb =>
    rw [update_some _ fs _ cb (by rfl)]
    simp [survivors_survivors, expectedEvents_survivors, callAll]

/-- C5: `addPath(path, name)` against a snapshot: if the path does not exist the
watcher is unchanged; if some entry already has that path string the watcher is
unchanged whatever the name; otherwise the watch list is the old list followed
by one new entry with the given path and name, `exists = true` and the path's
current modification time.  In every case the old list is a prefix of the new
one, so no existing entry is modified or reordered. -/
theorem addPath_spec (w : PathWatcher κ) (fs : FileSystem) (path name : String) :
    (fs.pathExists path = false → w.addPath fs path name = w)
    ∧ ((∃ p ∈ w.paths, p.path = path) → w.addPath fs path name = w)
    ∧ (fs.pathExists path = true → (∀ p ∈ w.paths, p.path ≠ path) →
        w.addPath fs path name
          = { w with paths := w.paths ++ [⟨path, name, fs.st_mtime path, true⟩] })
    ∧ w.paths <+: (w.addPath fs path name).paths := by
  refine ⟨addPath_absent w fs path name, addPath_tracked w fs path name,
    addPath_fresh w fs path name, ?_⟩
  by_cases hex : fs.pathExists path = true
  · by_cases hnew : ∀ p ∈ w.paths, p.path ≠ path
    · rw [addPath_fresh w fs path name hex hnew]
      exact List.prefix_append _ _
    · push_neg at hnew
      rw [addPath_tracked w fs path name hnew]
  · rw [addPath_absent w fs path name (by simpa using hex)]

theorem addPath_spec_witness :
    (sampleWatcher.addPath sampleFs "zz" "n" = sampleWatcher)
    ∧ (sampleWatcher.addPath sampleFs "a" "other" = sampleWatcher)
    ∧ (sampleWatcher.removePath "c").addPath sampleFs "c" "n"
        = { sampleWatcher.removePath "c" with
            paths := (sampleWatcher.removePath "c").paths ++ [⟨"c", "n", 0, true⟩] } :=
  ⟨(addPath_spec sampleWatcher sampleFs "zz" "n").1 (by decide),
   (addPath_spec sampleWatcher sampleFs "a" "other").2.1 ⟨⟨"a", "x", 3, true⟩, by decide, rfl⟩,
   (addPath_spec (sampleWatcher.removePath "c") sampleFs "c" "n").2.2.1
     (by decide) (by decide)⟩

/-- C6: starting from a freshly constructed watcher, after any finite sequence of
`addPath`, `removePath`, `removePathByName`, `removeAllPaths`, `setCallback`,
`setRemoveDeletedPaths` and `update` calls, against any snapshots, the paths of
the entries are pairwise distinct. -/
theorem paths_nodup (ops : List (Op κ)) (k : κ) :
    (((Exec.fresh k).run ops).watcher.paths.map Path.path).Nodup :=
  run_nodup ops (Exec.fresh k) (by simp [Exec.fresh])

/-- C7: when `P` is not tracked and exists in the snapshot, `addPath(P, name)`
followed by `update()` against the same snapshot delivers no event whose path is
`P`, whatever `P`'s modification time; the new entry is tracked and unchanged by
the pass. -/
theorem addPath_then_update_silent (w : PathWatcher κ) (fs : FileSystem) (P name : String)
    (k : κ) (hex : fs.pathExists P = true) (hnew : ∀ p ∈ w.paths, p.path ≠ P) :
    (∀ e ∈ ((w.addPath fs P name).update fs k).delivered, e.path ≠ P)
    ∧ ⟨P, name, fs.st_mtime P, true⟩ ∈ (w.addPath fs P name).paths
    ∧ ⟨P, name, fs.st_mtime P, true⟩ ∈ ((w.addPath fs P name).update fs k).paths := by
  have hchg : Path.changed fs ⟨P, name, fs.st_mtime P, true⟩
      = (NONE, ⟨P, name, fs.st_mtime P, true⟩) := by
    simp [Path.changed, hex]
  refine ⟨?_, ?_, ?_⟩
  · intro e he
    have hmem := delivered_subset _ fs k e he
    rw [addPath_fresh w fs P name hex hnew, mem_expectedEvents] at hmem
    obtain ⟨p, hp, hn, rfl⟩ := hmem
    simp only [List.mem_append, List.mem_singleton] at hp
    rcases hp with hp | rfl
    · exact hnew p hp
    · exact absurd (by rw [hchg]) hn
  · rw [addPath_fresh w fs P name hex hnew]
    simp
  · rw [update_paths, addPath_fresh w fs P name hex hnew]
    simp only [survivors, List.mem_filterMap]
    refine ⟨⟨P, name, fs.st_mtime P, true⟩, by simp, ?_⟩
    simp [hchg]

theorem addPath_then_update_silent_witness :
    (∀ e ∈ (((sampleWatcher.removePath "c").addPath sampleFs "c" "n").update sampleFs []).delivered,
        e.path ≠ "c")
    ∧ ⟨"c", "n", 0, true⟩
        ∈ (((sampleWatcher.removePath "c").addPath sampleFs "c" "n").update sampleFs []).paths :=
  have h := addPath_then_update_silent (sampleWatcher.removePath "c") sampleFs "c" "n" []
    (by decide) (by decide)
  ⟨h.1, h.2.2⟩

/-- C9, as the code has it: with the auto-remove policy on, every entry that
`update()` leaves in the watch list is the checked state of an entry that was
not found deleted, and (paths being distinct) no entry with the path of one
found deleted remains; with the policy off, which is the default, every entry
stays, a deleted one with `exists = false` and `modified = 0`. -/
theorem update_removes_deleted_iff_enabled (w : PathWatcher κ) (fs : FileSystem) (k : κ) :
    (w.removeDeleted = true →
      (∀ q ∈ (w.update fs k).paths,
          ∃ p ∈ w.paths, (p.changed fs).1 ≠ DELETED ∧ q = (p.changed fs).2)
      ∧ ((w.paths.map Path.path).Nodup →
          ∀ p ∈ w.paths, (p.changed fs).1 = DELETED →
            ∀ q ∈ (w.update fs k).paths, q.path ≠ p.path))
    ∧ (w.removeDeleted = false →
      (w.update fs k).paths = w.paths.map (fun p => (p.changed fs).2)
      ∧ ∀ p ∈ w.paths, (p.changed fs).1 = DELETED →
          ⟨p.path, p.name, 0, false⟩ ∈ (w.update fs k).paths) := by
  constructor
  · intro hrd
    have hfrom : ∀ q ∈ (w.update fs k).paths,
        ∃ p ∈ w.paths, (p.changed fs).1 ≠ DELETED ∧ q = (p.changed fs).2 := by
      intro q hq
      rw [update_paths, hrd] at hq
      obtain ⟨p, hp, hd, rfl⟩ := mem_survivors hq
      exact ⟨p, hp, fun h => hd ⟨h, rfl⟩, rfl⟩
    refine ⟨hfrom, ?_⟩
    intro hnd p hp hdel q hq hpath
    obtain ⟨p', hp', hd', rfl⟩ := hfrom q hq
    rw [changed_path] at hpath
    have : p' = p := List.inj_on_of_nodup_map hnd hp' hp hpath
    exact hd' (this ▸ hdel)
  · intro hrd
    have hp : (w.update fs k).paths = w.paths.map (fun p => (p.changed fs).2) := by
      rw [update_paths, hrd, survivors_false]
    refine ⟨hp, ?_⟩
    intro p hmem hdel
    rw [hp, List.mem_map]
    refine ⟨p, hmem, ?_⟩
    obtain ⟨path, name, modified, ex⟩ := p
    by_cases h1 : fs.pathExists path = true <;> by_cases h2 : ex = true <;>
      by_cases h3 : modified = fs.st_mtime path <;>
      simp_all [Path.changed, Path.update]

theorem update_removes_deleted_iff_enabled_witness :
    (∀ q ∈ (autoRemoveWatcher.update sampleFs []).paths, q.path ≠ "b")
    ∧ ⟨"b", "y", 0, false⟩ ∈ (sampleWatcher.update sampleFs []).paths :=
  ⟨((update_removes_deleted_iff_enabled autoRemoveWatcher sampleFs []).1 rfl).2
      (by decide) ⟨"b", "y", 7, true⟩ (by decide) (by decide),
   ((update_removes_deleted_iff_enabled sampleWatcher sampleFs []).2 rfl).2
      ⟨"b", "y", 7, true⟩ (by decide) (by decide)⟩

/-- C9, as stated, fails: with the default policy (`removeDeleted = false`) the
entry `b`, found deleted during the pass, is still in the watch list after
`update()`. -/
theorem update_keeps_deleted_by_default :
    sampleWatcher.removeDeleted = false
    ∧ (Path.changed sampleFs ⟨"b", "y", 7, true⟩).1 = DELETED
    ∧ (sampleWatcher.update sampleFs []).paths
        = [⟨"a", "x", 5, true⟩, ⟨"b", "y", 0, false⟩, ⟨"c", "", 0, true⟩] := by
  refine ⟨rfl, by decide, ?_⟩
  rw [update_paths]
  decide

/-- C10, as the code has it: in every state reachable through the public calls,
`removePath(p)` twice leaves what `removePath(p)` once leaves, and so does
`removeAllPaths()`; `removePathByName(n)` twice leaves what once leaves when at
most one tracked entry has the name `n`. -/
theorem remove_idempotent (ops : List (Op κ)) (k : κ) (p n : String) :
    (((Exec.fresh k).run ops).watcher.removePath p).removePath p
        = ((Exec.fresh k).run ops).watcher.removePath p
    ∧ (((Exec.fresh k).run ops).watcher.removeAllPaths).removeAllPaths
        = ((Exec.fresh k).run ops).watcher.removeAllPaths
    ∧ ((((Exec.fresh k).run ops).watcher.paths.countP (fun q => q.name == n)) ≤ 1 →
        (((Exec.fresh k).run ops).watcher.removePathByName n).removePathByName n
          = ((Exec.fresh k).run ops).watcher.removePathByName n) := by
  have hnd := run_nodup ops (Exec.fresh k) (by simp [Exec.fresh])
  refine ⟨?_, rfl, ?_⟩
  · rw [removePath_eq, removePath_eq]
    simp only [eraseP_eraseP _ _ (countP_path_le_one p _ hnd)]
  · intro hle
    rw [removePathByName_eq, removePathByName_eq]
    simp only [eraseP_eraseP _ _ hle]

theorem remove_idempotent_witness :
    (((Exec.fresh ()).run [Op.addPath sampleFs "a" "x", Op.addPath sampleFs "c" "y"]).watcher.removePathByName
        "x").removePathByName "x"
      = ((Exec.fresh ()).run [Op.addPath sampleFs "a" "x", Op.addPath sampleFs "c" "y"]).watcher.removePathByName
          "x" :=
  (remove_idempotent [Op.addPath sampleFs "a" "x", Op.addPath sampleFs "c" "y"] () "a" "x").2.2
    (by decide)

/-- C10, as stated, fails for `removePathByName`: after `addPath("a")` and
`addPath("c")`, both with the default name `""`, the first `removePathByName("")`
leaves the entry `c` and the second one removes it too. -/
theorem removePathByName_twice_differs :
    (((Exec.fresh ()).run [Op.addPath sampleFs "a" "", Op.addPath sampleFs "c" ""]).watcher.removePathByName
        "").paths = [⟨"c", "", 0, true⟩]
    ∧ ((((Exec.fresh ()).run
          [Op.addPath sampleFs "a" "", Op.addPath sampleFs "c" ""]).watcher.removePathByName
          "").removePathByName "").paths = [] := by
  decide

/-- C8: in every run that starts from a fresh watcher, registers a callback first
and never unregisters it, (1) `addPath` either leaves the watch list alone or
appends one entry with `exists = true`; (2) every `CREATED` event delivered for
an entry `(P, name)` by some call is preceded by a `DELETED` event for it,
delivered by an earlier call with no registration of `P` in between; and (3)
every tracked entry with `exists = false` has already had `DELETED` reported
for it since its registration. -/
theorem created_only_after_deleted (cb0 : Event → κ → κ) (k : κ) (ops : List (Op κ))
    (hreg : ∀ op ∈ ops, op ≠ Op.setCallback none) :
    (∀ (w : PathWatcher κ) (fs : FileSystem) (path name : String),
        (w.addPath fs path name).paths = w.paths
        ∨ ∃ e : Path, e.exists_ = true ∧ e.path = path ∧ e.name = name
            ∧ (w.addPath fs path name).paths = w.paths ++ [e])
    ∧ (∀ (before : List Step) (s : Step) (after : List Step) (P name : String),
        ((Exec.fresh k).run (Op.setCallback (some cb0) :: ops)).history = before ++ s :: after →
        ({ change := CREATED, path := P, name := name } : Event) ∈ s.delivered →
        DeletedSince P name before)
    ∧ (∀ p ∈ ((Exec.fresh k).run (Op.setCallback (some cb0) :: ops)).watcher.paths,
        p.exists_ = false →
        DeletedSince p.path p.name
          ((Exec.fresh k).run (Op.setCallback (some cb0) :: ops)).history) := by
  refine ⟨?_, ?_⟩
  · intro w fs path name
    by_cases hex : fs.pathExists path = true
    · by_cases hnew : ∀ p ∈ w.paths, p.path ≠ path
      · right
        exact ⟨⟨path, name, fs.st_mtime path, true⟩, rfl, rfl, rfl,
          by rw [addPath_fresh w fs path name hex hnew]⟩
      · push_neg at hnew
        left
        rw [addPath_tracked w fs path name hnew]
    · left
      rw [addPath_absent w fs path name (by simpa using hex)]
  · have h := run_reported ops ((Exec.fresh k).step (Op.setCallback (some cb0))) hreg
      ⟨cb0, rfl⟩ (by intro p hp; simp [Exec.step, Exec.fresh, setCallback] at hp)
      (created_extend [] _
        (by intro before s after P name heq; simp at heq)
        (by intro P name hmem; simp at hmem))
    exact ⟨h.2, h.1⟩

theorem created_only_after_deleted_witness :
    DeletedSince "a" "x"
      [⟨none, []⟩, ⟨some "a", []⟩, ⟨none, [⟨DELETED, "a", "x"⟩]⟩] :=
  (created_only_after_deleted record [] recreateOps
      (by intro op hop; simp [recreateOps] at hop; rcases hop with rfl | rfl | rfl <;> simp)).2.1
    [⟨none, []⟩, ⟨some "a", []⟩, ⟨none, [⟨DELETED, "a", "x"⟩]⟩]
    ⟨none, [⟨CREATED, "a", "x"⟩]⟩ [] "a" "x"
    (by
      simp only [recreateOps, Exec.run, List.foldl]
      rw [step_update_some _ sampleFs record rfl, step_update_some _ emptyFs record rfl]
      decide)
    (by simp)

/-! ## Lifecycle -/

theorem runLifecycle_append (w : PathWatcher κ) (a b : List Lifecycle) :
    runLifecycle w (a ++ b) = runLifecycle (runLifecycle w a) b := by
  simp [runLifecycle, List.foldl_append]

theorem start_of_running (w : PathWatcher κ) (sleep : Nat) (h : w.running = true) :
    w.start sleep = w := by
  simp [start, h]

theorem stop_of_stopped (w : PathWatcher κ) (h : w.running = false) : w.stop = w := by
  simp [stop, h]

/-- A handle exists exactly when the flag is set, after every lifecycle call. -/
theorem lifecycle_handle (w : PathWatcher κ) (c : Lifecycle)
    (h : w.thread.isSome = w.running) :
    (lifecycle w c).thread.isSome = (lifecycle w c).running := by
  cases c with
  | start sleep =>
    by_cases hr : w.running = true
    · simpa [lifecycle, start, hr] using h
    · simp [lifecycle, start, hr]
  | stop =>
    by_cases hr : w.running = true
    · simp [lifecycle, stop, hr]
    · simpa [lifecycle, stop, hr] using h

theorem runLifecycle_handle (calls : List Lifecycle) :
    ∀ w : PathWatcher κ, w.thread.isSome = w.running →
      (runLifecycle w calls).thread.isSome = (runLifecycle w calls).running := by
  induction calls with
  | nil => intro w h; exact h
  | cons c calls ih =>
    intro w h
    exact ih (lifecycle w c) (lifecycle_handle w c h)

/-- Further `start` calls on a running watcher change nothing. -/
theorem runLifecycle_starts (rest : List Lifecycle) :
    ∀ w : PathWatcher κ, w.running = true → (∀ c ∈ rest, c ≠ Lifecycle.stop) →
      runLifecycle w rest = w := by
  induction rest with
  | nil => intro w _ _; rfl
  | cons c rest ih =>
    intro w hr hstart
    cases c with
    | start sleep =>
      have hw : lifecycle w (Lifecycle.start sleep) = w := start_of_running w sleep hr
      show runLifecycle (lifecycle w (Lifecycle.start sleep)) rest = w
      rw [hw]
      exact ih w hr (fun c hc => hstart c (List.mem_cons_of_mem _ hc))
    | stop => exact absurd rfl (hstart Lifecycle.stop (List.mem_cons_self _ _))

theorem lifecycle_running (w : PathWatcher κ) (c : Lifecycle) :
    (lifecycle w c).running = true ↔ ∃ sleep, c = Lifecycle.start sleep := by
  cases c with
  | start sleep =>
    by_cases hr : w.running = true <;> simp [lifecycle, start, hr]
  | stop =>
    by_cases hr : w.running = true <;> simp [lifecycle, stop, hr]

/-- C11: starting from a fresh watcher, after every finite sequence of
`start(interval)` and `stop()` calls: `isRunning()` is true exactly when the most
recent call was a `start`; a thread handle exists exactly when `running` is set;
`start` while running and `stop` while stopped change nothing; when the watcher
was stopped, `start(i)` followed by any number of further `start` calls leaves
the handle with the interval `i`; and neither call changes the watch list, the
callback or the auto-remove policy of any watcher. -/
theorem lifecycle_two_state (calls : List Lifecycle) :
    ((runLifecycle ({} : PathWatcher κ) calls).isRunning = true
        ↔ ∃ pre sleep, calls = pre ++ [Lifecycle.start sleep])
    ∧ ((runLifecycle ({} : PathWatcher κ) calls).thread.isSome
        = (runLifecycle ({} : PathWatcher κ) calls).isRunning)
    ∧ ((runLifecycle ({} : PathWatcher κ) calls).isRunning = true →
        ∀ sleep, (runLifecycle ({} : PathWatcher κ) calls).start sleep
          = runLifecycle ({} : PathWatcher κ) calls)
    ∧ ((runLifecycle ({} : PathWatcher κ) calls).isRunning = false →
        (runLifecycle ({} : PathWatcher κ) calls).stop
          = runLifecycle ({} : PathWatcher κ) calls)
    ∧ (∀ (pre rest : List Lifecycle) (sleep : Nat),
        calls = pre ++ Lifecycle.start sleep :: rest →
        (runLifecycle ({} : PathWatcher κ) pre).isRunning = false →
        (∀ c ∈ rest, c ≠ Lifecycle.stop) →
        (runLifecycle ({} : PathWatcher κ) calls).thread = some sleep)
    ∧ (∀ (w : PathWatcher κ) (c : Lifecycle),
        (lifecycle w c).paths = w.paths
        ∧ (lifecycle w c).callback = w.callback
        ∧ (lifecycle w c).removeDeleted = w.removeDeleted) := by
  refine ⟨?_, ?_, ?_, ?_, ?_, ?_⟩
  · rcases List.eq_nil_or_concat calls with rfl | ⟨pre, c, rfl⟩
    · simp [runLifecycle, isRunning]
    · rw [List.concat_eq_append, runLifecycle_append]
      show (lifecycle _ c).running = true ↔ _
      rw [lifecycle_running]
      constructor
      · rintro ⟨sleep, rfl⟩
        exact ⟨pre, sleep, rfl⟩
      · rintro ⟨pre', sleep, h⟩
        have := List.append_inj' h rfl
        exact ⟨sleep, by simpa using this.2⟩
  · exact runLifecycle_handle calls _ rfl
  · intro h sleep
    exact start_of_running _ sleep h
  · intro h
    exact stop_of_stopped _ h
  · intro pre rest sleep hcalls hstopped hstarts
    subst hcalls
    rw [runLifecycle_append]
    show (runLifecycle (lifecycle _ (Lifecycle.start sleep)) rest).thread = some sleep
    have hs : (runLifecycle ({} : PathWatcher κ) pre).running = false := hstopped
    rw [runLifecycle_starts rest _ (by simp [lifecycle, start, hs]) hstarts]
    simp [lifecycle, start, hs]
  · intro w c
    cases c with
    | start sleep =>
      by_cases hr : w.running = true <;> simp [lifecycle, start, hr]
    | stop =>
      by_cases hr : w.running = true <;> simp [lifecycle, stop, hr]

theorem lifecycle_two_state_witness :
    (runLifecycle ({} : PathWatcher Unit)
        [Lifecycle.start 50, Lifecycle.stop, Lifecycle.start 100, Lifecycle.start 200]).thread
      = some 100 :=
  (lifecycle_two_state
      [Lifecycle.start 50, Lifecycle.stop, Lifecycle.start 100, Lifecycle.start 200]).2.2.2.2.1
    [Lifecycle.start 50, Lifecycle.stop] [Lifecycle.start 200] 100 rfl (by decide) (by decide)

/-- C14: the watch list that `update()` leaves behind, and the entries it checks,
are the same whatever callback is registered, none included; so after a pass
with no callback registered, registering a callback and running `update()`
against the same snapshot delivers no event and leaves the callback's world
alone. -/
theorem update_state_callback_independent (w : PathWatcher κ) (fs : FileSystem) (k k2 : κ)
    (c1 c2 : Option (Event → κ → κ)) (cb : Event → κ → κ) :
    (update (setCallback w c1) fs k).paths = (update (setCallback w c2) fs k2).paths
    ∧ (update (setCallback w c1) fs k).checked = (update (setCallback w c2) fs k2).checked
    ∧ (update (setCallback w none) fs k).delivered = []
    ∧ (update (setCallback
          { w with paths := (update (setCallback w none) fs k).paths } (some cb)) fs k2).delivered
        = []
    ∧ (update (setCallback
          { w with paths := (update (setCallback w none) fs k).paths } (some cb)) fs k2).world
        = k2 := by
  refine ⟨?_, ?_, ?_, ?_, ?_⟩
  · rw [update_paths, update_paths]
    rfl
  · rw [update_checked, update_checked]
    rfl
  · rw [update_none _ fs k rfl]
  · rw [update_some _ fs k2 cb rfl, update_paths]
    exact expectedEvents_survivors _ fs _
  · rw [update_some _ fs k2 cb rfl, update_paths]
    show callAll cb (expectedEvents fs (survivors _ fs _)) k2 = k2
    rw [expectedEvents_survivors]
    rfl

end PathWatcher

namespace Path

/-! ## Path components -/

theorem getline_unread {delim : Char} :
    ∀ {line token unread : List Char}, getline line delim = some (token, unread) →
      unread.length < line.length ∧ delim ∉ token := by
  intro line
  induction line with
  | nil => intro token unread h; simp [getline] at h
  | cons c rest ih =>
    intro token unread h
    by_cases hc : c = delim
    · simp only [getline, hc, ite_true, Option.some.injEq, Prod.mk.injEq] at h
      obtain ⟨rfl, rfl⟩ := h
      simp
    · simp only [getline, hc, ite_false] at h
      cases hrest : getline rest delim with
      | none =>
        simp only [hrest, Option.some.injEq, Prod.mk.injEq] at h
        obtain ⟨rfl, rfl⟩ := h
        simp [Ne.symm hc]
      | some r =>
        obtain ⟨tok, un⟩ := r
        simp only [hrest, Option.some.injEq, Prod.mk.injEq] at h
        obtain ⟨rfl, rfl⟩ := h
        have := ih hrest
        refine ⟨by simp only [List.length_cons]; omega, ?_⟩
        simp [Ne.symm hc, this.2]

/-- Once the bound exceeds the number of unread characters, the loop of `split`
ends by itself: a larger bound gives the same components. -/
theorem splitLoop_fuel :
    ∀ (n m : Nat) (line : List Char) (components : List String),
      line.length < n → line.length < m →
      splitLoop n line components = splitLoop m line components := by
  intro n
  induction n with
  | zero => intro m line components h; omega
  | succ n ih =>
    intro m line components hn hm
    cases m with
    | zero => omega
    | succ m =>
      cases hg : getline line separator with
      | none => simp [splitLoop, hg]
      | some r =>
        obtain ⟨token, unread⟩ := r
        have := (getline_unread hg).1
        simp only [splitLoop, hg]
        exact ih m unread _ (by omega) (by omega)

theorem splitLoop_tokens :
    ∀ (n : Nat) (line : List Char) (components : List String),
      (∀ t ∈ components, separator ∉ t.data) →
      ∀ t ∈ splitLoop n line components, separator ∉ t.data := by
  intro n
  induction n with
  | zero => intro line components h; simpa [splitLoop] using h
  | succ n ih =>
    intro line components h
    cases hg : getline line separator with
    | none => simpa [splitLoop, hg] using h
    | some r =>
      obtain ⟨token, unread⟩ := r
      simp only [splitLoop, hg]
      apply ih
      intro t ht
      rcases List.mem_append.mp ht with ht | ht
      · exact h t ht
      · rw [List.mem_singleton.mp ht]
        exact (getline_unread hg).2

theorem rfind_none {c : Char} : ∀ {s : List Char}, rfind s c = none → c ∉ s := by
  intro s
  induction s with
  | nil => intro _; simp
  | cons x rest ih =>
    intro h
    cases hr : rfind rest c with
    | some pos => simp [rfind, hr] at h
    | none =>
      by_cases hx : x = c
      · simp [rfind, hr, hx] at h
      · simp [Ne.symm hx, ih hr]

theorem rfind_some {c : Char} :
    ∀ {s : List Char} {pos : Nat}, rfind s c = some pos →
      ∃ tail, s.drop pos = c :: tail := by
  intro s
  induction s with
  | nil => intro pos h; simp [rfind] at h
  | cons x rest ih =>
    intro pos h
    cases hr : rfind rest c with
    | some p =>
      simp only [rfind, hr, Option.some.injEq] at h
      subst h
      simpa using ih hr
    | none =>
      by_cases hx : x = c
      · simp only [rfind, hr, hx, ite_true, Option.some.injEq] at h
        subst h
        exact ⟨rest, by simp [hx]⟩
      · simp [rfind, hr, hx] at h

theorem lastComponent_of_rfind {path : String} {pos : Nat}
    (h : rfind path.data separator = some pos) :
    lastComponent path = String.mk (path.data.drop pos) := by
  simp only [lastComponent, h, substr]
  rw [List.take_of_length_le (by simp)]

/-- C13 fails on the code: `lastComponent("a/b/c")` is `"/c"`, while the last
element of `split("a/b/c")` is `"c"`.  For every path that contains the
separator, `lastComponent` starts at the last separator and returns it with the
component, so its result is not an element of `split(path)`; for a path with no
separator it is the whole path. -/
theorem lastComponent_keeps_separator :
    lastComponent "a/b/c" = "/c"
    ∧ (split "a/b/c").getLast? = some "c"
    ∧ (∀ path : String, separator ∈ path.data →
        (lastComponent path).data.head? = some separator ∧ lastComponent path ∉ split path)
    ∧ (∀ path : String, separator ∉ path.data → lastComponent path = path) := by
  refine ⟨by decide, by decide, ?_, ?_⟩
  · intro path hsep
    cases h : rfind path.data separator with
    | none => exact absurd hsep (rfind_none h)
    | some pos =>
      obtain ⟨tail, htail⟩ := rfind_some h
      have hdata : (lastComponent path).data = separator :: tail := by
        rw [lastComponent_of_rfind h, htail]
      refine ⟨by rw [hdata]; rfl, ?_⟩
      intro hmem
      have := splitLoop_tokens _ path.data [] (by simp) _ hmem
      rw [hdata] at this
      simp at this
  · intro path hsep
    cases h : rfind path.data separator with
    | none =>
      simp only [lastComponent, h, substr, List.drop_zero, Nat.sub_zero]
      rw [List.take_of_length_le (le_refl _)]
    | some pos =>
      obtain ⟨tail, htail⟩ := rfind_some h
      have : separator ∈ path.data.drop pos := by rw [htail]; simp
      exact absurd (List.mem_of_mem_drop this) hsep

end Path
